import Mathlib

/-!
Verification of the video-library indexer (`scripts/build-manifest` style
script, `src/unnamed/part_000`) and the browser viewer (`src/app.js`).

The JavaScript is shallowly embedded:
* filesystem trees are the inductive `FSTree` (directories carry their
  entries in listing order; `fs.stat` distinguishing file/directory is the
  constructor);
* JS strings are Lean `String`s, JS numbers used as counters/sizes are `Nat`,
  the comparator arithmetic on `Infinity` and `NaN` is the explicit `JsNum`;
* the `Intl.Collator` is an external library and is carried as an opaque-free
  parameter `coll : String → String → Int` (negative/zero/positive result,
  exactly the contract `Array.prototype.sort` consumes);
* JS `Set`s of strings are duplicate-free `List String` in insertion order
  (`setAdd`/`setDelete` mirror `Set.add`/`Set.delete`);
* `Array.prototype.sort` with a consistent comparator is the unique stable
  sort by that comparator (ES2019+ guarantees stability); it is embedded as
  a stable insertion sort, with the ECMAScript coercion of a `NaN`
  comparator result to `+0` made explicit in `sortCompareLt`.
-/

namespace VideoLib

/-! ## JS string primitives -/

/-- The code points removed by `String.prototype.trim` (ECMAScript
WhiteSpace plus LineTerminator). -/
def isJsWhitespace (c : Char) : Bool :=
  c.toNat ∈ [0x9, 0xA, 0xB, 0xC, 0xD, 0x20, 0xA0, 0x1680,
    0x2000, 0x2001, 0x2002, 0x2003, 0x2004, 0x2005, 0x2006, 0x2007,
    0x2008, 0x2009, 0x200A, 0x2028, 0x2029, 0x202F, 0x205F, 0x3000, 0xFEFF]

/-- JS `String.prototype.trim`: drop JS whitespace from both ends. -/
def jsTrim (s : String) : String :=
  String.mk (((s.toList.dropWhile isJsWhitespace).reverse.dropWhile isJsWhitespace).reverse)

def isAsciiDigit (c : Char) : Bool := decide ('0' ≤ c) && decide (c ≤ '9')

/-- Numeric value of an ASCII digit run, as `Number(...)` computes it on a
string of digits.  (`Number` is modelled as exact; the IEEE-754 rounding of
runs of 17+ digits is below the granularity of the claims.) -/
def digitsToNat (ds : List Char) : Nat :=
  ds.foldl (fun acc c => 10 * acc + (c.toNat - 48)) 0

/-! ## Leading-number weight (`getLeadingNumberWeight`) -/

/-- The value space of `getLeadingNumberWeight`: a finite JS number or
`Number.POSITIVE_INFINITY`. -/
inductive Weight where
  | fin (n : Nat)
  | inf
deriving DecidableEq, Repr

/-- The indexer function `getLeadingNumberWeight`: falsy (empty) names and
whitespace-only names weigh `Infinity`; otherwise the name is trimmed, a
first code point in U+2460–U+2473 (circled digits ①–⑳) weighs its ordinal,
a leading ASCII digit run (`/^(\d+)/`) weighs its numeric value, and
anything else weighs `Infinity`. -/
def getLeadingNumberWeight (name : String) : Weight :=
  if name = "" then .inf
  else
    match (jsTrim name).toList with
    | [] => .inf
    | c :: cs =>
      if 0x2460 ≤ c.toNat && c.toNat ≤ 0x2473 then .fin (c.toNat - 0x245F)
      else
        match (c :: cs).takeWhile isAsciiDigit with
        | [] => .inf
        | ds => .fin (digitsToNat ds)

/-- Modelled from the wording of claim C2, for comparison with the code:
the weight read off the name itself — ordinal of a circled-digit first
character, else value of a leading ASCII digit run, else infinity.  The
claim never mentions trimming. -/
def specLeadingWeight (name : String) : Weight :=
  match name.toList with
  | [] => .inf
  | c :: cs =>
    if 0x2460 ≤ c.toNat && c.toNat ≤ 0x2473 then .fin (c.toNat - 0x245F)
    else
      match (c :: cs).takeWhile isAsciiDigit with
      | [] => .inf
      | ds => .fin (digitsToNat ds)

theorem jsTrim_empty : jsTrim "" = "" := rfl

theorem getLeadingNumberWeight_eq_spec_trim (name : String) :
    getLeadingNumberWeight name = specLeadingWeight (jsTrim name) := by
  by_cases h : name = ""
  · subst h; rfl
  · simp only [getLeadingNumberWeight, specLeadingWeight, if_neg h]

/-- C2 — the claim fails on names with leading whitespace: the claim
assigns `" 1"` weight infinity (its first character is a space, and it does
not start with an ASCII digit), but the code trims first and returns 1. -/
theorem claim_C2_cex :
    specLeadingWeight " 1" = Weight.inf ∧ getLeadingNumberWeight " 1" = Weight.fin 1 :=
  ⟨rfl, rfl⟩

/-- C2 (amended) — the leading-number weight is computed on the
whitespace-trimmed name: ordinal 1–20 if the first character of the
trimmed name is a circled digit U+2460–U+2473, else the integer value of
the leading ASCII digit run of the trimmed name, else positive infinity. -/
theorem claim_C2 (name : String) :
    getLeadingNumberWeight name = specLeadingWeight (jsTrim name) :=
  getLeadingNumberWeight_eq_spec_trim name

/-! ## Manifest nodes -/

/-- A manifest node as the indexer builds it: the `type` tag of the JSON
object is the constructor. The `videoCount` field of a video is the
constant 1 (`Node.videoCount`). -/
inductive Node where
  | directory (name : String) (path : String) (videoCount : Nat) (children : List Node)
  | video (name : String) (path : String) (size : Nat)

def Node.name : Node → String
  | .directory n _ _ _ => n
  | .video n _ _ => n

def Node.videoCount : Node → Nat
  | .directory _ _ vc _ => vc
  | .video _ _ _ => 1

def Node.childrenD : Node → List Node
  | .directory _ _ _ cs => cs
  | .video _ _ _ => []

/-! ## The comparator (`compareEntries`) and `Array.prototype.sort` -/

/-- The JS numbers a comparator run can produce: the difference of two
weights (`Infinity - Infinity` is `NaN`), or a finite collator result. -/
inductive JsNum where
  | nan
  | posInf
  | negInf
  | num (v : Int)
deriving DecidableEq, Repr

/-- JS subtraction of two leading-number weights. -/
def weightSub : Weight → Weight → JsNum
  | .fin a, .fin b => .num ((a : Int) - (b : Int))
  | .fin _, .inf => .negInf
  | .inf, .fin _ => .posInf
  | .inf, .inf => .nan

/-- The indexer comparator `compareEntries`: return the weight difference
if it is `!== 0` (note that `NaN !== 0`, so a `NaN` difference is returned
as is), otherwise the comparison the collator makes on the full names. -/
def compareEntries (coll : String → String → Int) (a b : Node) : JsNum :=
  let weightDiff := weightSub (getLeadingNumberWeight a.name) (getLeadingNumberWeight b.name)
  match weightDiff with
  | .num v => if v = 0 then .num (coll a.name b.name) else .num v
  | d => d

/-- The strict order `Array.prototype.sort` derives from the comparator:
an element sorts strictly before another when the comparator result is
negative.  ECMAScript coerces a `NaN` comparator result to `+0`, so `nan`
(like `posInf` and nonnegative finite results) is not "before". -/
def sortCompareLt (coll : String → String → Int) (a b : Node) : Bool :=
  match compareEntries coll a b with
  | .negInf => true
  | .num v => decide (v < 0)
  | _ => false

/-- Stable insertion step: `x` (an earlier element of the input) is placed
before the first element not strictly below it, so elements the comparator
ties keep their input order. -/
def insertSorted {α : Type} (lt : α → α → Bool) (x : α) : List α → List α
  | [] => [x]
  | y :: ys => if lt y x then y :: insertSorted lt x ys else x :: y :: ys

/-- JS `Array.prototype.sort(comparefn)` for a consistent comparator: the
stable sort by the strict order `lt`. -/
def stableSort {α : Type} (lt : α → α → Bool) : List α → List α
  | [] => []
  | x :: xs => insertSorted lt x (stableSort lt xs)

theorem insertSorted_perm {α : Type} (lt : α → α → Bool) (x : α) (l : List α) :
    List.Perm (insertSorted lt x l) (x :: l) := by
  induction l with
  | nil => exact List.Perm.refl _
  | cons y ys ih =>
    simp only [insertSorted]
    split
    · exact (ih.cons y).trans (List.Perm.swap x y ys)
    · exact List.Perm.refl _

theorem stableSort_perm {α : Type} (lt : α → α → Bool) (l : List α) :
    List.Perm (stableSort lt l) l := by
  induction l with
  | nil => exact List.Perm.refl _
  | cons x xs ih => exact (insertSorted_perm lt x (stableSort lt xs)).trans (ih.cons x)

theorem mem_insertSorted {α : Type} (lt : α → α → Bool) (x z : α) (l : List α)
    (h : z ∈ insertSorted lt x l) : z = x ∨ z ∈ l := by
  have := (insertSorted_perm lt x l).mem_iff.mp h
  simpa using this

theorem pairwise_insertSorted {α : Type} {R : α → α → Prop} (lt : α → α → Bool)
    (hlt : ∀ a b, lt a b = true → R a b)
    (hnlt : ∀ a b, lt b a = false → R a b)
    (htrans : ∀ a b c, R a b → R b c → R a c)
    (x : α) (l : List α) (hl : l.Pairwise R) :
    (insertSorted lt x l).Pairwise R := by
  induction l with
  | nil => simp [insertSorted]
  | cons y ys ih =>
    rcases List.pairwise_cons.mp hl with ⟨hy, hys⟩
    simp only [insertSorted]
    by_cases h : lt y x = true
    · rw [if_pos h]
      refine List.pairwise_cons.mpr ⟨?_, ih hys⟩
      intro z hz
      rcases mem_insertSorted lt x z ys hz with rfl | hz2
      · exact hlt y z h
      · exact hy z hz2
    · rw [if_neg h]
      have hxy : R x y := hnlt x y (Bool.not_eq_true _ ▸ h)
      refine List.pairwise_cons.mpr ⟨?_, hl⟩
      intro z hz
      rcases List.mem_cons.mp hz with rfl | hz2
      · exact hxy
      · exact htrans x y z hxy (hy z hz2)

theorem pairwise_stableSort {α : Type} {R : α → α → Prop} (lt : α → α → Bool)
    (hlt : ∀ a b, lt a b = true → R a b)
    (hnlt : ∀ a b, lt b a = false → R a b)
    (htrans : ∀ a b c, R a b → R b c → R a c)
    (l : List α) : (stableSort lt l).Pairwise R := by
  induction l with
  | nil => simp [stableSort]
  | cons x xs ih => exact pairwise_insertSorted lt hlt hnlt htrans x (stableSort lt xs) ih

theorem filter_insertSorted_neg {α : Type} (lt : α → α → Bool) (p : α → Bool)
    (x : α) (l : List α) (hx : p x = false) :
    (insertSorted lt x l).filter p = l.filter p := by
  induction l with
  | nil => simp [insertSorted, hx]
  | cons y ys ih =>
    simp only [insertSorted]
    split
    · simp only [List.filter_cons, ih]
    · simp [List.filter_cons, hx]

theorem filter_insertSorted_pos {α : Type} (lt : α → α → Bool) (p : α → Bool)
    (x : α) (l : List α) (hx : p x = true)
    (hstop : ∀ y, p y = true → lt y x = false)
    (hgo : ∀ y, p y = false → lt y x = true) :
    (insertSorted lt x l).filter p = x :: l.filter p := by
  induction l with
  | nil => simp [insertSorted, hx]
  | cons y ys ih =>
    simp only [insertSorted]
    by_cases hpy : p y = true
    · rw [if_neg ?_]
      · simp [List.filter_cons, hx, hpy]
      · simp [hstop y hpy]
    · have hpy2 : p y = false := Bool.not_eq_true _ ▸ hpy
      rw [if_pos (hgo y hpy2)]
      simp only [List.filter_cons, hpy2, ih]
      simp

theorem filter_stableSort {α : Type} (lt : α → α → Bool) (p : α → Bool)
    (hnever : ∀ a b, p a = true → lt a b = false)
    (hcross : ∀ a b, p a = false → p b = true → lt a b = true)
    (l : List α) : (stableSort lt l).filter p = l.filter p := by
  induction l with
  | nil => rfl
  | cons x xs ih =>
    simp only [stableSort]
    by_cases hx : p x = true
    · rw [filter_insertSorted_pos lt p x (stableSort lt xs) hx
        (fun y hy => hnever y x hy) (fun y hy => hcross y x hy hx)]
      simp [List.filter_cons, hx, ih]
    · have hx2 : p x = false := Bool.not_eq_true _ ▸ hx
      rw [filter_insertSorted_neg lt p x (stableSort lt xs) hx2]
      simp [List.filter_cons, hx2, ih]

/-! ## Weights as an ordered key -/

/-- A weight as an element of `WithTop Nat` (finite values below `⊤`). -/
def weightTop : Weight → WithTop Nat
  | .fin n => (n : WithTop Nat)
  | .inf => ⊤

/-- The sort key of a manifest node: the leading-number weight of its name. -/
def nodeKey (nd : Node) : WithTop Nat := weightTop (getLeadingNumberWeight nd.name)

/-- Entries with no leading numeric marker (weight `Infinity`). -/
def isUnnumbered (nd : Node) : Bool := getLeadingNumberWeight nd.name == Weight.inf

theorem isUnnumbered_iff (nd : Node) : isUnnumbered nd = true ↔ nodeKey nd = ⊤ := by
  unfold isUnnumbered nodeKey
  cases h : getLeadingNumberWeight nd.name with
  | fin n => simp [weightTop]
  | inf => simp [weightTop]

/-- The strict order the sort actually uses, characterised by keys: a node
sorts strictly before another iff its key is strictly smaller, or the keys
are equal, finite, and the collator is negative on the names.  (For two
infinite keys the comparator returns `NaN`, which the sort treats as a
tie; the collator is never consulted.) -/
theorem sortCompareLt_iff (coll : String → String → Int) (a b : Node) :
    sortCompareLt coll a b = true ↔
      nodeKey a < nodeKey b ∨
        (nodeKey a = nodeKey b ∧ nodeKey a ≠ ⊤ ∧ coll a.name b.name < 0) := by
  unfold sortCompareLt compareEntries nodeKey
  cases hA : getLeadingNumberWeight a.name with
  | fin m =>
    cases hB : getLeadingNumberWeight b.name with
    | fin n =>
      by_cases hmn : m = n
      · subst hmn
        simp [weightSub, weightTop]
      · have hsub : ((m : Int) - (n : Int)) ≠ 0 := by omega
        simp only [weightSub, if_neg hsub, weightTop]
        constructor
        · intro h
          left
          have : (m : Int) - (n : Int) < 0 := by simpa using h
          have hlt : m < n := by omega
          exact_mod_cast hlt
        · intro h
          rcases h with h | ⟨heq, _, _⟩
          · have hlt : m < n := by exact_mod_cast h
            simp only [decide_eq_true_eq]
            omega
          · exact absurd (by exact_mod_cast heq) hmn
    | inf =>
      simp only [weightSub, weightTop]
      constructor
      · intro _
        exact Or.inl (WithTop.coe_lt_top m)
      · intro _
        trivial
  | inf =>
    cases hB : getLeadingNumberWeight b.name with
    | fin n =>
      simp only [weightSub, weightTop]
      constructor
      · intro h
        exact absurd h (by simp)
      · intro h
        rcases h with h | ⟨heq, _, _⟩
        · exact absurd h (not_top_lt)
        · exact absurd heq (by simp)
    | inf =>
      simp only [weightSub, weightTop]
      constructor
      · intro h
        exact absurd h (by simp)
      · intro h
        rcases h with h | ⟨_, hne, _⟩
        · exact absurd h (not_top_lt)
        · exact absurd rfl hne

theorem sortCompareLt_key_le (coll : String → String → Int) (a b : Node)
    (h : sortCompareLt coll a b = true) : nodeKey a ≤ nodeKey b := by
  rcases (sortCompareLt_iff coll a b).mp h with h1 | ⟨h1, _, _⟩
  · exact le_of_lt h1
  · exact le_of_eq h1

theorem sortCompareLt_of_key_lt (coll : String → String → Int) (a b : Node)
    (h : nodeKey a < nodeKey b) : sortCompareLt coll a b = true :=
  (sortCompareLt_iff coll a b).mpr (Or.inl h)

theorem sortCompareLt_key_le_of_not (coll : String → String → Int) (a b : Node)
    (h : sortCompareLt coll b a = false) : nodeKey a ≤ nodeKey b := by
  by_contra hcon
  have hlt : nodeKey b < nodeKey a := lt_of_not_le hcon
  rw [sortCompareLt_of_key_lt coll b a hlt] at h
  exact Bool.true_eq_false ▸ h

theorem sortCompareLt_asymm (coll : String → String → Int)
    (Hasym : ∀ s t, coll s t < 0 → ¬ coll t s < 0) (a b : Node)
    (h : sortCompareLt coll a b = true) : sortCompareLt coll b a = false := by
  rw [Bool.eq_false_iff]
  intro hba
  rcases (sortCompareLt_iff coll a b).mp h with h1 | ⟨h1, h2, h3⟩ <;>
    rcases (sortCompareLt_iff coll b a).mp hba with g1 | ⟨g1, g2, g3⟩
  · exact absurd (h1.trans g1) (lt_irrefl _)
  · exact absurd g1 (ne_of_gt h1)
  · exact absurd h1 (ne_of_gt g1)
  · exact Hasym a.name b.name h3 g3

theorem sortCompareLt_cotrans (coll : String → String → Int)
    (Hco : ∀ s t u, coll u s < 0 → coll u t < 0 ∨ coll t s < 0) (a b c : Node)
    (h : sortCompareLt coll c a = true) :
    sortCompareLt coll c b = true ∨ sortCompareLt coll b a = true := by
  rcases (sortCompareLt_iff coll c a).mp h with h1 | ⟨h1, h2, h3⟩
  · rcases lt_or_le (nodeKey c) (nodeKey b) with hb | hb
    · exact Or.inl (sortCompareLt_of_key_lt coll c b hb)
    · exact Or.inr (sortCompareLt_of_key_lt coll b a (lt_of_le_of_lt hb h1))
  · rcases lt_trichotomy (nodeKey c) (nodeKey b) with hb | hb | hb
    · exact Or.inl (sortCompareLt_of_key_lt coll c b hb)
    · rcases Hco a.name b.name c.name h3 with hc | hc
      · exact Or.inl ((sortCompareLt_iff coll c b).mpr (Or.inr ⟨hb, h2, hc⟩))
      · refine Or.inr ((sortCompareLt_iff coll b a).mpr (Or.inr ⟨?_, ?_, hc⟩))
        · rw [← hb, h1]
        · rw [← hb]
          exact h2
    · exact Or.inr (sortCompareLt_of_key_lt coll b a (hb.trans_eq h1))

/-! ## A concrete collator stand-in

`Intl.Collator` is an external library; the development treats the
collator as a parameter.  For concrete witnesses a code-point
lexicographic comparison is used (on the ASCII names appearing in the
witnesses it orders exactly as the `ja-JP` collator does). -/

def strCmp : List Char → List Char → Int
  | [], [] => 0
  | [], _ :: _ => -1
  | _ :: _, [] => 1
  | a :: as, b :: bs => if a < b then -1 else if b < a then 1 else strCmp as bs

def collStandIn (a b : String) : Int := strCmp a.toList b.toList

theorem strCmp_asym : ∀ x y : List Char, strCmp x y < 0 → ¬ strCmp y x < 0 := by
  intro x
  induction x with
  | nil =>
    intro y h
    cases y with
    | nil => simp [strCmp] at h
    | cons b bs => simp [strCmp]
  | cons a as ih =>
    intro y h
    cases y with
    | nil => simp [strCmp] at h
    | cons b bs =>
      simp only [strCmp] at h ⊢
      by_cases hab : a < b
      · simp [hab, lt_asymm hab]
      · by_cases hba : b < a
        · simp [hab, hba] at h
        · simp only [if_neg hab, if_neg hba] at h ⊢
          exact ih bs h

theorem strCmp_cotrans : ∀ u s t : List Char, strCmp u s < 0 →
    strCmp u t < 0 ∨ strCmp t s < 0 := by
  intro u
  induction u with
  | nil =>
    intro s t h
    cases s with
    | nil => simp [strCmp] at h
    | cons b bs =>
      cases t with
      | nil => exact Or.inr (by simp [strCmp])
      | cons c cs => exact Or.inl (by simp [strCmp])
  | cons a as ih =>
    intro s t h
    cases s with
    | nil => simp [strCmp] at h
    | cons b bs =>
      cases t with
      | nil => exact Or.inr (by simp [strCmp])
      | cons c cs =>
        simp only [strCmp] at h ⊢
        by_cases hab : a < b
        · by_cases hac : a < c
          · exact Or.inl (by simp [hac])
          · have hcb : c < b := lt_of_le_of_lt (le_of_not_lt hac) hab
            exact Or.inr (by simp [hcb])
        · by_cases hba : b < a
          · simp [hab, hba] at h
          · have haeb : a = b := le_antisymm (le_of_not_lt hba) (le_of_not_lt hab)
            simp only [if_neg hab, if_neg hba] at h
            by_cases hac : a < c
            · exact Or.inl (by simp [hac])
            · by_cases hca : c < a
              · have hcb : c < b := haeb ▸ hca
                exact Or.inr (by simp [hcb])
              · have haec : a = c := le_antisymm (le_of_not_lt hca) (le_of_not_lt hac)
                rcases ih bs cs h with h2 | h2
                · exact Or.inl (by simp [hac, hca, h2])
                · have hcb : ¬ c < b := haec ▸ haeb ▸ lt_irrefl a
                  have hbc : ¬ b < c := haec ▸ haeb ▸ lt_irrefl a
                  exact Or.inr (by simp [hcb, hbc, h2])

theorem collStandIn_asym : ∀ s t : String, collStandIn s t < 0 → ¬ collStandIn t s < 0 :=
  fun s t h => strCmp_asym s.toList t.toList h

theorem collStandIn_cotrans : ∀ s t u : String, collStandIn u s < 0 →
    collStandIn u t < 0 ∨ collStandIn t s < 0 :=
  fun s t u h => strCmp_cotrans u.toList s.toList t.toList h

/-! ## C3: what the sibling sort guarantees -/

/-- Two entries with no leading numeric marker, in the listing order
`"b"` then `"a"`. -/
def videoB : Node := .video "b" "videos/b" 0

def videoA : Node := .video "a" "videos/a" 0

/-- C3 — counterexample to "ties are broken by the collator": `"b"` and
`"a"` both have weight `Infinity`, the collator orders `"a"` strictly
before `"b"`, yet the sort leaves them in listing order `b, a`: the
comparator returns `NaN` (`Infinity - Infinity`), which
`Array.prototype.sort` treats as a tie without ever calling the collator. -/
theorem claim_C3_cex :
    getLeadingNumberWeight "b" = Weight.inf
    ∧ getLeadingNumberWeight "a" = Weight.inf
    ∧ collStandIn "a" "b" < 0
    ∧ stableSort (sortCompareLt collStandIn) [videoB, videoA] = [videoB, videoA] :=
  ⟨rfl, rfl, by decide, rfl⟩

/-- C3 (amended) — the sibling sort returns a permutation of its input,
sorted ascending by leading-number weight; every entry with no leading
numeric marker sorts after every entry that has one, and unnumbered
entries keep their input order among themselves (their comparisons yield
`NaN`, treated as ties, so the collator is not consulted); for entries
with equal *finite* weight the order is decided by the collator (for any
collator that is asymmetric and cotransitive, as `Intl.Collator` is). -/
theorem claim_C3 (coll : String → String → Int) (l : List Node) :
    List.Perm (stableSort (sortCompareLt coll) l) l
    ∧ (stableSort (sortCompareLt coll) l).Pairwise (fun a b => nodeKey a ≤ nodeKey b)
    ∧ (stableSort (sortCompareLt coll) l).Pairwise
        (fun a b => isUnnumbered a = true → isUnnumbered b = true)
    ∧ (stableSort (sortCompareLt coll) l).filter isUnnumbered = l.filter isUnnumbered
    ∧ ((∀ s t, coll s t < 0 → ¬ coll t s < 0) →
       (∀ s t u, coll u s < 0 → coll u t < 0 ∨ coll t s < 0) →
       (stableSort (sortCompareLt coll) l).Pairwise
         (fun a b => nodeKey a = nodeKey b → nodeKey a ≠ ⊤ → ¬ coll b.name a.name < 0)) := by
  have hkey : (stableSort (sortCompareLt coll) l).Pairwise (fun a b => nodeKey a ≤ nodeKey b) :=
    pairwise_stableSort (sortCompareLt coll)
      (fun a b h => sortCompareLt_key_le coll a b h)
      (fun a b h => sortCompareLt_key_le_of_not coll a b h)
      (fun _ _ _ h1 h2 => le_trans h1 h2) l
  refine ⟨stableSort_perm _ l, hkey, ?_, ?_, ?_⟩
  · refine List.Pairwise.imp ?_ hkey
    intro a b hab ha
    rw [isUnnumbered_iff] at ha ⊢
    exact top_le_iff.mp (ha ▸ hab)
  · refine filter_stableSort (sortCompareLt coll) isUnnumbered ?_ ?_ l
    · intro a b ha
      rw [Bool.eq_false_iff]
      intro hlt
      rcases (sortCompareLt_iff coll a b).mp hlt with h1 | ⟨_, h2, _⟩
      · exact absurd (((isUnnumbered_iff a).mp ha) ▸ h1) (not_top_lt)
      · exact h2 ((isUnnumbered_iff a).mp ha)
    · intro a b ha hb
      apply sortCompareLt_of_key_lt
      have hb2 := (isUnnumbered_iff b).mp hb
      have ha2 : nodeKey a ≠ ⊤ := by
        intro hcon
        rw [← isUnnumbered_iff] at hcon
        rw [ha] at hcon
        exact Bool.false_ne_true hcon
      rw [hb2]
      exact lt_top_iff_ne_top.mpr ha2
  · intro Hasym Hco
    have hfull : (stableSort (sortCompareLt coll) l).Pairwise
        (fun a b => sortCompareLt coll b a = false) := by
      refine pairwise_stableSort (sortCompareLt coll)
        (fun a b h => sortCompareLt_asymm coll Hasym a b h)
        (fun a b h => h)
        ?_ l
      intro a b c h1 h2
      rw [Bool.eq_false_iff]
      intro hca
      rcases sortCompareLt_cotrans coll Hco a b c hca with h3 | h3
      · exact absurd h3 (Bool.eq_false_iff.mp h2)
      · exact absurd h3 (Bool.eq_false_iff.mp h1)
    refine List.Pairwise.imp ?_ hfull
    intro a b hab heq hfin hba
    have : sortCompareLt coll b a = true :=
      (sortCompareLt_iff coll b a).mpr (Or.inr ⟨heq.symm, heq ▸ hfin, hba⟩)
    exact absurd this (Bool.eq_false_iff.mp hab)

/-- Witness for C3 at a concrete collator and sibling list: the collator
stand-in is asymmetric and cotransitive, so the equal-finite-weight tie
rule holds for it. -/
theorem claim_C3_witness :
    (stableSort (sortCompareLt collStandIn) [videoA, videoB]).Pairwise
      (fun a b => nodeKey a = nodeKey b → nodeKey a ≠ ⊤ → ¬ collStandIn b.name a.name < 0) :=
  (claim_C3 collStandIn [videoA, videoB]).2.2.2.2 collStandIn_asym collStandIn_cotrans

/-! ## The filesystem and `buildNode` -/

/-- A filesystem tree as the `fs` calls of the indexer observe it: a
directory with its entries in listing order (`readdir` order), or a file
with its byte size.  (What `fs.stat` answers through
`isDirectory`/`isFile` is the constructor.) -/
inductive FSTree where
  | dir (entries : List (String × FSTree))
  | file (size : Nat)

/-- JS `entry.name.startsWith(".")`: a basename starts with a dot iff its
first character is `.`. -/
def startsWithDot (s : String) : Bool :=
  match s.toList with
  | [] => false
  | c :: _ => c = '.'

/-- Index of the last `.` in a character list, if any. -/
def lastDotIdx : List Char → Option Nat
  | [] => none
  | c :: cs =>
    match lastDotIdx cs with
    | some i => some (i + 1)
    | none => if c = '.' then some 0 else none

/-- Node `path.extname` applied to a basename (the names the indexer
passes never contain a path separator): the suffix from the last `.`,
except that a name with no dot, a name whose only leading dot is its
first character, and the name `".."` yield the empty string. -/
def extname (name : String) : String :=
  match lastDotIdx name.toList with
  | none => ""
  | some 0 => ""
  | some i => if name = ".." then "" else String.mk (name.toList.drop i)

/-- JS `String.prototype.toLowerCase`, character-wise.  `Char.toLower` maps
only ASCII; this is extensionally adequate for the single use, comparison
with `".mp4"`, since no non-ASCII code point lowercases to `.`, `m`, `p`
or `4`. -/
def jsToLower (s : String) : String := String.mk (s.toList.map Char.toLower)

/-- The lower-cased extension, `path.extname(fullPath).toLowerCase()`. -/
def extLower (name : String) : String := jsToLower (extname name)

/-- The `path` identifier of a node: the scan-root label `videos`, joined
with the `/`-normalised relative path when it is nonempty. -/
def mkNodePath (rel : List String) : String :=
  if rel = [] then "videos" else "videos/" ++ String.intercalate "/" rel

/-- The fold `children.reduce((total, child) => total + (child.videoCount ?? 0), 0)`. -/
def sumVideoCounts (cs : List Node) : Nat :=
  cs.foldl (fun total child => total + child.videoCount) 0

mutual
/-- The indexer recursion `buildNode`, for the subtree `t` reached under the
relative segment list `rel` with basename `name`: a directory node with
sorted children and aggregated `videoCount`, a video node for `.mp4`
files (case-insensitively), `none` for any other file. -/
def buildNode (coll : String → String → Int) (name : String) (rel : List String) :
    FSTree → Option Node
  | .dir entries =>
    let children := stableSort (sortCompareLt coll) (buildChildren coll rel entries)
    some (.directory name (mkNodePath rel) (sumVideoCounts children) children)
  | .file size =>
    if extLower name = ".mp4" then some (.video name (mkNodePath rel) size) else none

/-- The loop body of the directory branch of `buildNode`: skip dot entries,
recurse, keep the non-null results in listing order (they are sorted
afterwards). -/
def buildChildren (coll : String → String → Int) (rel : List String) :
    List (String × FSTree) → List Node
  | [] => []
  | (n, sub) :: rest =>
    if startsWithDot n then buildChildren coll rel rest
    else
      match buildNode coll n (rel ++ [n]) sub with
      | some node => node :: buildChildren coll rel rest
      | none => buildChildren coll rel rest
end

mutual
/-- Modelled from the wording of claim C1: the number of files with
case-insensitive extension `.mp4` in a subtree, excluding entries whose
name starts with `.` together with their whole subtrees. -/
def mp4Count (name : String) : FSTree → Nat
  | .file _ => if extLower name = ".mp4" then 1 else 0
  | .dir entries => mp4CountList entries

def mp4CountList : List (String × FSTree) → Nat
  | [] => 0
  | (n, sub) :: rest =>
    (if startsWithDot n then 0 else mp4Count n sub) + mp4CountList rest
end

mutual
/-- The aggregation invariant of C1: every directory node has a
`videoCount` equal to the sum of the `videoCount` of its immediate
children, recursively. -/
def dirInvariant : Node → Bool
  | .video _ _ _ => true
  | .directory _ _ vc cs => (vc == sumVideoCounts cs) && dirInvariantList cs

def dirInvariantList : List Node → Bool
  | [] => true
  | c :: rest => dirInvariant c && dirInvariantList rest
end

mutual
/-- Mutual induction over `FSTree` and entry lists. -/
theorem fstreeInduct (motive : FSTree → Prop) (motiveL : List (String × FSTree) → Prop)
    (hfile : ∀ s, motive (.file s))
    (hdir : ∀ es, motiveL es → motive (.dir es))
    (hnil : motiveL [])
    (hcons : ∀ n sub rest, motive sub → motiveL rest → motiveL ((n, sub) :: rest)) :
    ∀ t, motive t
  | .file s => hfile s
  | .dir es => hdir es (fstreeInductList motive motiveL hfile hdir hnil hcons es)

theorem fstreeInductList (motive : FSTree → Prop) (motiveL : List (String × FSTree) → Prop)
    (hfile : ∀ s, motive (.file s))
    (hdir : ∀ es, motiveL es → motive (.dir es))
    (hnil : motiveL [])
    (hcons : ∀ n sub rest, motive sub → motiveL rest → motiveL ((n, sub) :: rest)) :
    ∀ es, motiveL es
  | [] => hnil
  | (n, sub) :: rest =>
    hcons n sub rest (fstreeInduct motive motiveL hfile hdir hnil hcons sub)
      (fstreeInductList motive motiveL hfile hdir hnil hcons rest)
end

theorem sumVideoCounts_aux (l : List Node) :
    ∀ n : Nat, l.foldl (fun total child => total + child.videoCount) n
      = n + (l.map Node.videoCount).sum := by
  induction l with
  | nil => simp
  | cons c cs ih =>
    intro n
    simp only [List.foldl_cons, List.map_cons, List.sum_cons, ih]
    omega

theorem sumVideoCounts_eq (l : List Node) :
    sumVideoCounts l = (l.map Node.videoCount).sum := by
  simpa using sumVideoCounts_aux l 0

theorem sumVideoCounts_cons (c : Node) (l : List Node) :
    sumVideoCounts (c :: l) = c.videoCount + sumVideoCounts l := by
  simp [sumVideoCounts_eq]

theorem sumVideoCounts_perm (l1 l2 : List Node) (h : List.Perm l1 l2) :
    sumVideoCounts l1 = sumVideoCounts l2 := by
  rw [sumVideoCounts_eq, sumVideoCounts_eq]
  exact (h.map Node.videoCount).sum_eq

theorem dirInvariantList_iff (l : List Node) :
    dirInvariantList l = true ↔ ∀ c ∈ l, dirInvariant c = true := by
  induction l with
  | nil => simp [dirInvariantList]
  | cons c cs ih => simp [dirInvariantList, ih]

theorem buildNode_none_mp4Count (coll : String → String → Int) (name : String)
    (rel : List String) (t : FSTree) (h : buildNode coll name rel t = none) :
    mp4Count name t = 0 := by
  cases t with
  | dir es => simp [buildNode] at h
  | file s =>
    simp only [buildNode] at h
    by_cases he : extLower name = ".mp4"
    · rw [if_pos he] at h
      exact absurd h (by simp)
    · simp [mp4Count, he]

theorem buildNode_correct : ∀ t : FSTree,
    ∀ (coll : String → String → Int) (name : String) (rel : List String) (nd : Node),
      buildNode coll name rel t = some nd →
      dirInvariant nd = true ∧ nd.videoCount = mp4Count name t := by
  refine fstreeInduct _
    (fun es => ∀ (coll : String → String → Int) (rel : List String),
      dirInvariantList (buildChildren coll rel es) = true
      ∧ sumVideoCounts (buildChildren coll rel es) = mp4CountList es)
    ?_ ?_ ?_ ?_
  · intro s coll name rel nd h
    simp only [buildNode] at h
    by_cases he : extLower name = ".mp4"
    · rw [if_pos he] at h
      cases h
      refine ⟨rfl, ?_⟩
      simp [Node.videoCount, mp4Count, he]
    · rw [if_neg he] at h
      exact absurd h (by simp)
  · intro es hL coll name rel nd h
    simp only [buildNode] at h
    cases h
    obtain ⟨hInv, hSum⟩ := hL coll rel
    have hperm := stableSort_perm (sortCompareLt coll) (buildChildren coll rel es)
    constructor
    · simp only [dirInvariant, Bool.and_eq_true, beq_iff_eq]
      refine ⟨by trivial, ?_⟩
      rw [dirInvariantList_iff]
      intro c hc
      exact (dirInvariantList_iff _).mp hInv c (hperm.mem_iff.mp hc)
    · simp only [Node.videoCount, mp4Count]
      rw [sumVideoCounts_perm _ _ hperm, hSum]
  · intro coll rel
    simp [buildChildren, dirInvariantList, sumVideoCounts, mp4CountList]
  · intro n sub rest hsub hrest coll rel
    obtain ⟨hInvR, hSumR⟩ := hrest coll rel
    simp only [buildChildren, mp4CountList]
    by_cases hdot : startsWithDot n = true
    · rw [if_pos hdot, if_pos hdot]
      simpa [hInvR] using hSumR
    · rw [if_neg hdot, if_neg hdot]
      cases hb : buildNode coll n (rel ++ [n]) sub with
      | none =>
        have h0 := buildNode_none_mp4Count coll n (rel ++ [n]) sub hb
        simp [hInvR, hSumR, h0]
      | some node =>
        obtain ⟨hInvN, hCountN⟩ := hsub coll n (rel ++ [n]) node hb
        simp [dirInvariantList, hInvN, hInvR, sumVideoCounts_cons, hCountN, hSumR]

/-- C1 — every directory node `buildNode` produces satisfies, recursively,
`videoCount` equal to the summed `videoCount` of the immediate children
(`dirInvariant`), and the `videoCount` of the built node equals the number
of `.mp4` files (case-insensitive extension) in the corresponding
filesystem subtree, dot-named entries and their subtrees excluded
(`mp4Count`); since every directory node of the output is itself
`buildNode` of its subtree, the count equality holds transitively for
every directory of the manifest. -/
theorem claim_C1 (coll : String → String → Int) (name : String) (rel : List String)
    (t : FSTree) (nd : Node) (h : buildNode coll name rel t = some nd) :
    dirInvariant nd = true ∧ nd.videoCount = mp4Count name t :=
  buildNode_correct t coll name rel nd h

/-- A small concrete tree: a root video, a skipped dot directory that
contains a video, a subdirectory with an upper-case `.MP4` video and a
non-video file. -/
def wTree : FSTree :=
  .dir [("b.mp4", .file 5),
        (".hidden", .dir [("c.mp4", .file 1)]),
        ("sub", .dir [("c.MP4", .file 2), ("d.txt", .file 3)])]

/-- The manifest node the indexer builds from `wTree`. -/
def wNode : Node :=
  .directory "videos" "videos" 2
    [.video "b.mp4" "videos/b.mp4" 5,
     .directory "sub" "videos/sub" 1 [.video "c.MP4" "videos/sub/c.MP4" 2]]

theorem claim_C1_witness :
    dirInvariant wNode = true ∧ wNode.videoCount = mp4Count "videos" wTree :=
  claim_C1 collStandIn "videos" [] wTree wNode rfl

/-- C4 — classification during the walk: a dot-named entry is skipped entirely
(removing it from the listing changes nothing — it is neither descended
into nor counted); a directory always becomes a `directory` node; a file
becomes a `video` node iff its extension lowercases to `.mp4`, and any
other file produces no node and no error (`none`). -/
theorem claim_C4 :
    (∀ (coll : String → String → Int) (rel : List String)
       (pre post : List (String × FSTree)) (n : String) (sub : FSTree),
       startsWithDot n = true →
       buildChildren coll rel (pre ++ (n, sub) :: post) = buildChildren coll rel (pre ++ post))
    ∧ (∀ (coll : String → String → Int) (name : String) (rel : List String)
         (es : List (String × FSTree)), ∃ vc cs,
        buildNode coll name rel (.dir es) = some (.directory name (mkNodePath rel) vc cs))
    ∧ (∀ (coll : String → String → Int) (name : String) (rel : List String) (size : Nat),
        (buildNode coll name rel (.file size) = some (.video name (mkNodePath rel) size)
          ↔ extLower name = ".mp4")
        ∧ (extLower name ≠ ".mp4" → buildNode coll name rel (.file size) = none)) := by
  refine ⟨?_, ?_, ?_⟩
  · intro coll rel pre post n sub hdot
    induction pre with
    | nil => simp [buildChildren, hdot]
    | cons e pre ih =>
      obtain ⟨m, s⟩ := e
      simp only [List.cons_append, buildChildren, List.append_eq]
      rw [ih]
  · intro coll name rel es
    exact ⟨_, _, rfl⟩
  · intro coll name rel size
    by_cases he : extLower name = ".mp4"
    · constructor
      · simp [buildNode, he]
      · intro hne
        exact absurd he hne
    · constructor
      · simp [buildNode, he]
      · intro _
        simp [buildNode, he]

theorem claim_C4_witness :
    buildChildren collStandIn [] [(".hidden", FSTree.dir [("c.mp4", FSTree.file 1)]),
        ("a.mp4", FSTree.file 2)]
      = buildChildren collStandIn [] [("a.mp4", FSTree.file 2)]
    ∧ buildNode collStandIn "d.txt" ["d.txt"] (FSTree.file 3) = none :=
  ⟨claim_C4.1 collStandIn [] [] [("a.mp4", FSTree.file 2)] ".hidden"
      (FSTree.dir [("c.mp4", FSTree.file 1)]) rfl,
   (claim_C4.2.2 collStandIn "d.txt" ["d.txt"] 3).2 (by decide)⟩

/-! ## The indexer run (`ensureVideosDir` + `main`) -/

/-- One indexer run over the observed state of the `videos` root: `none`
when `fs.stat` fails (no such entry).  `ensureVideosDir` throws when the
root is missing or not a directory; `main` throws when `buildNode`
returns nothing; otherwise the manifest is written with the children of
the root node as `categories` (`Except.ok`).  An `Except.error` run writes no
manifest and exits with a nonzero status. -/
def runIndexer (coll : String → String → Int) (root : Option FSTree) :
    Except String (List Node) :=
  match root with
  | none => .error "videos directory not found"
  | some (.file _) => .error "videos is not a directory"
  | some (.dir es) =>
    match buildNode coll "videos" [] (.dir es) with
    | none => .error "could not build the video data"
    | some node => .ok node.childrenD

/-- C5 — counterexample: an existing root directory with zero entries does
produce a node (`buildNode` always returns a directory node for a
directory), so the run succeeds and writes a manifest with an empty
category list, where the claim says it fails writing nothing. -/
theorem claim_C5_cex :
    runIndexer collStandIn (some (FSTree.dir [])) = Except.ok [] := rfl

/-- C5 (amended) — the run fails (aborts without writing a manifest) iff
the root directory check fails: the root is missing or is not a
directory.  When the root exists and is a directory a node is always
built — even with zero entries — and a manifest (possibly with an empty
category list) is written. -/
theorem claim_C5 (coll : String → String → Int) (root : Option FSTree) :
    (∃ e, runIndexer coll root = .error e)
      ↔ (root = none ∨ ∃ s, root = some (.file s)) := by
  cases root with
  | none => simp [runIndexer]
  | some t =>
    cases t with
    | dir es => simp [runIndexer, buildNode]
    | file s => simp [runIndexer]

/-! ## The viewer: manifest JSON, stats, completion set -/

/-- A manifest node as the viewer receives it from `data/videos.json`:
an object with a `type` tag, `name`, `path`, `size` and `children`
(`?? []` for absent children).  The viewer only branches on
`type === "video"`. -/
inductive VNode where
  | mk (type : String) (name : String) (path : String) (size : Nat) (children : List VNode)

def VNode.type : VNode → String
  | .mk t _ _ _ _ => t

def VNode.path : VNode → String
  | .mk _ _ p _ _ => p

def VNode.children : VNode → List VNode
  | .mk _ _ _ _ cs => cs

/-- JS `Set.prototype.add` on the insertion-ordered duplicate-free list
model of a JS string set. -/
def setAdd (s : List String) (x : String) : List String :=
  if x ∈ s then s else s ++ [x]

/-- JS `Set.prototype.delete` (as used: drop the element if present). -/
def setDelete (s : List String) (x : String) : List String :=
  s.filter (fun y => decide (y ≠ x))

mutual
/-- The `visit` closure of `collectVideoStats`, threading the `total`
counter and the `paths` set: a `type === "video"` node counts 1 and
contributes its path when truthy (nonempty); any other node recurses
into its children. -/
def visitNode (acc : Nat × List String) : VNode → Nat × List String
  | .mk t _ p _ cs =>
    if t = "video" then
      (acc.1 + 1, if p ≠ "" then setAdd acc.2 p else acc.2)
    else visitList acc cs

def visitList (acc : Nat × List String) : List VNode → Nat × List String
  | [] => acc
  | c :: cs => visitList (visitNode acc c) cs
end

/-- The viewer function `collectVideoStats`: the total and the path set,
accumulated over the category list. -/
def collectVideoStats (categories : List VNode) : Nat × List String :=
  visitList (0, []) categories

mutual
/-- Modelled from the wording of claim C6: the video nodes of the tree —
a `video` node is one; any other node contributes the video nodes of its
children, recursively. -/
def videoNodes : VNode → List VNode
  | .mk t n p s cs => if t = "video" then [.mk t n p s cs] else videoNodesList cs

def videoNodesList : List VNode → List VNode
  | [] => []
  | c :: cs => videoNodes c ++ videoNodesList cs
end

mutual
/-- Mutual induction over `VNode` and node lists. -/
theorem vnodeInduct (motive : VNode → Prop) (motiveL : List VNode → Prop)
    (hmk : ∀ t n p s cs, motiveL cs → motive (.mk t n p s cs))
    (hnil : motiveL [])
    (hcons : ∀ c cs, motive c → motiveL cs → motiveL (c :: cs)) :
    ∀ v, motive v
  | .mk t n p s cs => hmk t n p s cs (vnodeInductList motive motiveL hmk hnil hcons cs)

theorem vnodeInductList (motive : VNode → Prop) (motiveL : List VNode → Prop)
    (hmk : ∀ t n p s cs, motiveL cs → motive (.mk t n p s cs))
    (hnil : motiveL [])
    (hcons : ∀ c cs, motive c → motiveL cs → motiveL (c :: cs)) :
    ∀ l, motiveL l
  | [] => hnil
  | c :: cs =>
    hcons c cs (vnodeInduct motive motiveL hmk hnil hcons c)
      (vnodeInductList motive motiveL hmk hnil hcons cs)
end

theorem setAdd_mem (s : List String) (p x : String) :
    x ∈ setAdd s p ↔ x ∈ s ∨ x = p := by
  unfold setAdd
  by_cases h : p ∈ s
  · rw [if_pos h]
    constructor
    · exact Or.inl
    · rintro (hx | rfl)
      · exact hx
      · exact h
  · rw [if_neg h]
    simp [List.mem_append]

theorem visitNode_spec : ∀ v : VNode, ∀ acc : Nat × List String,
    (visitNode acc v).1 = acc.1 + (videoNodes v).length
    ∧ (∀ x, x ∈ (visitNode acc v).2
        ↔ x ∈ acc.2 ∨ (x ≠ "" ∧ x ∈ (videoNodes v).map VNode.path)) := by
  refine vnodeInduct _
    (fun l => ∀ acc : Nat × List String,
      (visitList acc l).1 = acc.1 + (videoNodesList l).length
      ∧ (∀ x, x ∈ (visitList acc l).2
          ↔ x ∈ acc.2 ∨ (x ≠ "" ∧ x ∈ (videoNodesList l).map VNode.path)))
    ?_ ?_ ?_
  · intro t n p s cs hL acc
    by_cases ht : t = "video"
    · simp only [visitNode, videoNodes, if_pos ht]
      refine ⟨by simp, ?_⟩
      intro x
      by_cases hp : p = ""
      · subst hp
        rw [if_neg (by simp)]
        simp [VNode.path]
      · rw [if_pos hp]
        rw [setAdd_mem]
        simp only [List.map_cons, List.map_nil, List.mem_singleton, VNode.path]
        constructor
        · rintro (hx | rfl)
          · exact Or.inl hx
          · exact Or.inr ⟨hp, rfl⟩
        · rintro (hx | ⟨_, rfl⟩)
          · exact Or.inl hx
          · exact Or.inr rfl
    · simp only [visitNode, videoNodes, if_neg ht]
      exact hL acc
  · intro acc
    simp [visitList, videoNodesList]
  · intro c cs hc hcs acc
    simp only [visitList, videoNodesList]
    obtain ⟨h1, h2⟩ := hc acc
    obtain ⟨h3, h4⟩ := hcs (visitNode acc c)
    refine ⟨?_, ?_⟩
    · rw [h3, h1, List.length_append]
      omega
    · intro x
      rw [h4 x, h2 x]
      simp only [List.map_append, List.mem_append]
      tauto

theorem visitList_spec (l : List VNode) (acc : Nat × List String) :
    (visitList acc l).1 = acc.1 + (videoNodesList l).length
    ∧ (∀ x, x ∈ (visitList acc l).2
        ↔ x ∈ acc.2 ∨ (x ≠ "" ∧ x ∈ (videoNodesList l).map VNode.path)) := by
  induction l generalizing acc with
  | nil => simp [visitList, videoNodesList]
  | cons c cs ih =>
    simp only [visitList, videoNodesList]
    obtain ⟨h1, h2⟩ := visitNode_spec c acc
    obtain ⟨h3, h4⟩ := ih (visitNode acc c)
    refine ⟨?_, ?_⟩
    · rw [h3, h1, List.length_append]
      omega
    · intro x
      rw [h4 x, h2 x]
      simp only [List.map_append, List.mem_append]
      tauto

/-- A video node whose `path` is the empty string. -/
def emptyPathVideo : VNode := .mk "video" "clip" "" 7 []

/-- C6 — counterexample to "the set contains the path of every Video
node": a video node with an empty (falsy) `path` is counted in `total`
but its path is not added to the set (`if (node.path)` fails). -/
theorem claim_C6_cex :
    videoNodesList [emptyPathVideo] = [emptyPathVideo]
    ∧ (collectVideoStats [emptyPathVideo]).1 = 1
    ∧ (collectVideoStats [emptyPathVideo]).2 = []
    ∧ VNode.path emptyPathVideo = "" :=
  ⟨rfl, rfl, rfl, rfl⟩

/-- C6 (amended) — `collectVideoStats` returns a total equal to the number
of video nodes of the tree (directories and any non-video node contribute
only by recursion into their children) and a set containing exactly the
nonempty paths of those video nodes; it is deterministic, so running it
twice yields identical results. -/
theorem claim_C6 (cats : List VNode) :
    (collectVideoStats cats).1 = (videoNodesList cats).length
    ∧ (∀ x, x ∈ (collectVideoStats cats).2
        ↔ x ≠ "" ∧ x ∈ (videoNodesList cats).map VNode.path)
    ∧ collectVideoStats cats = collectVideoStats cats := by
  obtain ⟨h1, h2⟩ := visitList_spec cats (0, [])
  refine ⟨by simpa using h1, ?_, rfl⟩
  intro x
  have := h2 x
  simpa using this

/-! ## Pruning and toggling the completed set -/

/-- The viewer function `pruneCompletedVideos`: keep only completed paths that are in
`validVideoPaths`; when anything was dropped, replace the set and persist
it.  The `Option` component is the single possible
`persistCompletedVideos` write, carrying the serialized list. -/
def pruneCompletedVideos (completed valid : List String) :
    List String × Option (List String) :=
  let filtered := completed.filter (fun p => decide (p ∈ valid))
  if filtered.length ≠ completed.length then (filtered, some filtered)
  else (completed, none)

theorem length_filter_eq_iff {α : Type} (p : α → Bool) (l : List α) :
    (l.filter p).length = l.length ↔ ∀ x ∈ l, p x = true := by
  induction l with
  | nil => simp
  | cons a l ih =>
    by_cases hp : p a = true
    · simp [List.filter_cons, hp, ih]
    · have hp2 : p a = false := by
        revert hp
        cases p a <;> simp
      have hle := List.length_filter_le p l
      simp only [List.filter_cons, hp2, Bool.false_eq_true, if_false, List.length_cons]
      constructor
      · intro h
        omega
      · intro h
        exact absurd (h a (List.mem_cons_self a l)) (by simp [hp2])

theorem prune_spec (completed valid : List String) :
    (∀ x, x ∈ (pruneCompletedVideos completed valid).1 ↔ x ∈ completed ∧ x ∈ valid)
    ∧ ((pruneCompletedVideos completed valid).2
        = some (pruneCompletedVideos completed valid).1 ↔ ∃ x ∈ completed, x ∉ valid)
    ∧ ((pruneCompletedVideos completed valid).2 = none ↔ ∀ x ∈ completed, x ∈ valid) := by
  unfold pruneCompletedVideos
  by_cases h : (completed.filter (fun p => decide (p ∈ valid))).length = completed.length
  · rw [if_neg (by omega)]
    have hall := (length_filter_eq_iff _ completed).mp h
    refine ⟨?_, ?_, ?_⟩
    · intro x
      constructor
      · intro hx
        exact ⟨hx, by simpa using hall x hx⟩
      · intro hx
        exact hx.1
    · simp only [reduceCtorEq, false_iff]
      push_neg
      intro x hx
      simpa using hall x hx
    · simp only [true_iff]
      intro x hx
      simpa using hall x hx
  · rw [if_pos h]
    refine ⟨?_, ?_, ?_⟩
    · intro x
      simp [List.mem_filter]
    · simp only [true_iff]
      by_contra hcon
      push_neg at hcon
      exact h ((length_filter_eq_iff _ completed).mpr (fun x hx => by simpa using hcon x hx))
    · simp only [reduceCtorEq, false_iff]
      push_neg
      by_contra hcon
      push_neg at hcon
      exact h ((length_filter_eq_iff _ completed).mpr (fun x hx => by simpa using hcon x hx))

/-- C7 — pruning at manifest load removes exactly the completed paths not
in `validVideoPaths` (membership in the pruned set is membership in both),
and the reduced set is persisted exactly once iff at least one path was
removed, not at all otherwise. -/
theorem claim_C7 (completed : List String) (cats : List VNode) :
    (∀ x, x ∈ (pruneCompletedVideos completed (collectVideoStats cats).2).1
        ↔ x ∈ completed ∧ x ∈ (collectVideoStats cats).2)
    ∧ ((pruneCompletedVideos completed (collectVideoStats cats).2).2
        = some (pruneCompletedVideos completed (collectVideoStats cats).2).1
        ↔ ∃ x ∈ completed, x ∉ (collectVideoStats cats).2)
    ∧ ((pruneCompletedVideos completed (collectVideoStats cats).2).2 = none
        ↔ ∀ x ∈ completed, x ∈ (collectVideoStats cats).2) :=
  prune_spec completed (collectVideoStats cats).2

/-- The viewer function `toggleVideoCompletion`: no-op on a falsy path or one not in
`validVideoPaths`; otherwise add (flag set) or remove (flag cleared) the
path and persist the whole set. -/
def toggleVideoCompletion (valid completed : List String) (path : String)
    (isCompleted : Bool) : List String × Option (List String) :=
  if path = "" then (completed, none)
  else if path ∉ valid then (completed, none)
  else
    let newSet := if isCompleted then setAdd completed path else setDelete completed path
    (newSet, some newSet)

/-- C8 — `toggleVideoCompletion` leaves the completed set unchanged and
performs no write when the path is falsy or unknown; otherwise it adds or
removes exactly the given path and persists the whole resulting set once. -/
theorem claim_C8 (valid completed : List String) (path : String) (b : Bool) :
    ((path = "" ∨ path ∉ valid) →
      toggleVideoCompletion valid completed path b = (completed, none))
    ∧ (path ≠ "" → path ∈ valid →
        (toggleVideoCompletion valid completed path b).2
          = some (toggleVideoCompletion valid completed path b).1
        ∧ (∀ x, x ∈ (toggleVideoCompletion valid completed path b).1 ↔
            (if b then x ∈ completed ∨ x = path else x ∈ completed ∧ x ≠ path))) := by
  constructor
  · rintro (h | h)
    · simp [toggleVideoCompletion, h]
    · unfold toggleVideoCompletion
      by_cases hp : path = ""
      · rw [if_pos hp]
      · rw [if_neg hp, if_pos h]
  · intro hp hv
    unfold toggleVideoCompletion
    rw [if_neg hp, if_neg (by simpa using hv)]
    refine ⟨rfl, ?_⟩
    intro x
    cases b with
    | true =>
      simp only [if_pos rfl]
      exact setAdd_mem completed path x
    | false =>
      simp only [Bool.false_eq_true, if_false, setDelete, List.mem_filter,
        decide_eq_true_eq]

theorem claim_C8_witness :
    toggleVideoCompletion ["videos/a.mp4"] [] "videos/x.mp4" true = ([], none)
    ∧ (toggleVideoCompletion ["videos/a.mp4"] [] "videos/a.mp4" true).2
        = some (toggleVideoCompletion ["videos/a.mp4"] [] "videos/a.mp4" true).1 :=
  ⟨(claim_C8 ["videos/a.mp4"] [] "videos/x.mp4" true).1 (Or.inr (by decide)),
   ((claim_C8 ["videos/a.mp4"] [] "videos/a.mp4" true).2 (by decide) (by decide)).1⟩

/-! ## Progress UI -/

/-- What `updateProgressUI` puts on screen. -/
structure ProgressUI where
  completed : Nat
  percent : ℚ
  percentText : String
  countText : String

/-- JS `Number.prototype.toFixed(1)` for the nonnegative values this app
produces (exact for the values the claims evaluate): round half-up to one
decimal digit. -/
def ratToFixed1 (q : ℚ) : String :=
  let n : Nat := (Int.floor (q * 10 + 1 / 2)).toNat
  toString (n / 10) ++ "." ++ toString (n % 10)

/-- The viewer function `updateProgressUI`: completed clamped to the total
(`Math.min(size, total)`), percent as a fraction of the total (0 when the
total is 0), the percent string (`"0%"` exactly when the total is 0,
`toFixed(1) + "%"` otherwise), and the `completed / total 本` count. -/
def updateProgressUI (totalVideos completedSize : Nat) : ProgressUI :=
  let total := totalVideos
  let completed := min completedSize total
  let percent : ℚ := if total = 0 then 0 else (completed : ℚ) / (total : ℚ) * 100
  ProgressUI.mk completed percent
    (if total = 0 then "0%" else ratToFixed1 percent ++ "%")
    (toString completed ++ " / " ++ toString total ++ " 本")

theorem ratToFixed1_hundred : ratToFixed1 100 = "100.0" := by
  have h1 : Int.floor ((100 : ℚ) * 10 + 1 / 2) = 1000 := by norm_num
  simp only [ratToFixed1, h1]
  rfl

/-- C9 — the displayed completed count is `min(|completed|, total)`, the
percent is `completed / total * 100` (0 with text exactly `"0%"` when the
total is 0), and in particular total 10 with a corrupted completed size of
12 displays 10 completed at `"100.0%"`. -/
theorem claim_C9 (total size : Nat) :
    (updateProgressUI total size).completed = min size total
    ∧ (total = 0 → (updateProgressUI total size).percent = 0
        ∧ (updateProgressUI total size).percentText = "0%")
    ∧ (total ≠ 0 → (updateProgressUI total size).percent
        = (min size total : ℚ) / (total : ℚ) * 100)
    ∧ (updateProgressUI 10 12).completed = 10
    ∧ (updateProgressUI 10 12).percentText = "100.0%" := by
  refine ⟨rfl, ?_, ?_, rfl, ?_⟩
  · intro h
    subst h
    exact ⟨rfl, rfl⟩
  · intro h
    simp [updateProgressUI, h]
  · show (if (10 : Nat) = 0 then "0%" else ratToFixed1 _ ++ "%") = "100.0%"
    rw [if_neg (by omega)]
    have : (if (10 : Nat) = 0 then (0 : ℚ)
        else ((min 12 10 : Nat) : ℚ) / ((10 : Nat) : ℚ) * 100) = 100 := by
      rw [if_neg (by omega)]
      norm_num
    rw [this, ratToFixed1_hundred]
    rfl

theorem claim_C9_witness :
    (updateProgressUI 0 5).percent = 0 ∧ (updateProgressUI 0 5).percentText = "0%"
    ∧ (updateProgressUI 4 2).percent = ((min 2 4 : Nat) : ℚ) / ((4 : Nat) : ℚ) * 100 :=
  ⟨((claim_C9 0 5).2.1 rfl).1, ((claim_C9 0 5).2.1 rfl).2,
   (claim_C9 4 2).2.2.1 (by omega)⟩

/-- C10 — after load (stats collection then pruning) the completed set is
a subset of `validVideoPaths`, and every later `toggleVideoCompletion`
preserves that subset invariant, whatever path and flag it is given. -/
theorem claim_C10 :
    (∀ (completed : List String) (cats : List VNode),
      (pruneCompletedVideos completed (collectVideoStats cats).2).1
        ⊆ (collectVideoStats cats).2)
    ∧ (∀ (valid completed : List String) (path : String) (b : Bool),
        completed ⊆ valid → (toggleVideoCompletion valid completed path b).1 ⊆ valid) := by
  constructor
  · intro completed cats x hx
    exact ((prune_spec completed (collectVideoStats cats).2).1 x |>.mp hx).2
  · intro valid completed path b hsub
    unfold toggleVideoCompletion
    by_cases hp : path = ""
    · rw [if_pos hp]
      exact hsub
    · rw [if_neg hp]
      by_cases hv : path ∈ valid
      · rw [if_neg (by simpa using hv)]
        cases b with
        | true =>
          simp only [if_pos rfl]
          intro x hx
          rcases (setAdd_mem completed path x).mp hx with h | rfl
          · exact hsub h
          · exact hv
        | false =>
          simp only [Bool.false_eq_true, if_false, setDelete]
          intro x hx
          exact hsub (List.mem_filter.mp hx).1
      · rw [if_pos (by simpa using hv)]
        exact hsub

theorem claim_C10_witness :
    (toggleVideoCompletion ["videos/a.mp4", "videos/b.mp4"] ["videos/a.mp4"]
        "videos/b.mp4" true).1
      ⊆ ["videos/a.mp4", "videos/b.mp4"] :=
  claim_C10.2 ["videos/a.mp4", "videos/b.mp4"] ["videos/a.mp4"] "videos/b.mp4" true
    (by decide)

end VideoLib
